import Mathlib

/-!
# Verification of the distributed 2D Poisson solver (MPI_Poisson.c)

Shallow embedding of the solver's data model and operations:

* a local tile's 2D arrays (`phi`, `source`, and the CG arrays `pCG`, `rCG`,
  `vCG`) become functions `ℕ → ℕ → ℚ` / `ℕ → ℕ → Bool`; the exact rational
  arithmetic mirrors the program's formulas (`0.25`, `omega = 1.95`);
* the C double loops over the interior `x ∈ [1, dimX-2], y ∈ [1, dimY-2]`
  become folds over the explicit list `interiorCells`, threading the mutated
  array and accumulators exactly as the source does (in-place writes become
  pointwise functional updates);
* single-process MPI collectives (`MPI_Allreduce` over one rank) return the
  local value, and `MPI_Sendrecv` with `MPI_PROC_NULL` neighbours is a no-op;
* the multi-process halo exchange is modelled on a grid of tiles indexed by
  process coordinates, with the four `MPI_Sendrecv` phases applied in program
  order.
-/

/-- A local 2D array of reals (`double **` in the source). -/
abbrev Grid := ℕ → ℕ → ℚ

/-- Pointwise functional update: the in-place write `g[x][y] = v`. -/
def upd (g : Grid) (x y : ℕ) (v : ℚ) : Grid :=
  fun a b => if a = x ∧ b = y then v else g a b

/-- The local tile of one process: dimensions `dim`, global offsets `offset`,
the `source` flag array and the field `phi` (MPI_Poisson.c, globals
`dim`, `offset`, `source`, `phi`). -/
structure Tile where
  dimX : ℕ
  dimY : ℕ
  offX : ℕ
  offY : ℕ
  source : ℕ → ℕ → Bool
  phi : Grid

/-- The interior cells in C loop order: `x` from `1` to `dim[X_DIR]-2`
(outer), `y` from `1` to `dim[Y_DIR]-2` (inner). -/
def interiorCells (dX dY : ℕ) : List (ℕ × ℕ) :=
  (List.range (dX - 2)).flatMap fun i => (List.range (dY - 2)).map fun j => (i + 1, j + 1)

/-- Cell `(x, y)` lies in the interior of a `dX × dY` tile
(the loop bounds `1 <= x < dim[X_DIR]-1`, `1 <= y < dim[Y_DIR]-1`). -/
def inInterior (dX dY x y : ℕ) : Prop :=
  1 ≤ x ∧ x < dX - 1 ∧ 1 ≤ y ∧ y < dY - 1

instance (dX dY x y : ℕ) : Decidable (inInterior dX dY x y) := by
  unfold inInterior; infer_instance

lemma mem_interiorCells {dX dY x y : ℕ} :
    (x, y) ∈ interiorCells dX dY ↔ inInterior dX dY x y := by
  simp only [interiorCells, List.mem_flatMap, List.mem_map, List.mem_range, inInterior,
    Prod.mk.injEq]
  constructor
  · rintro ⟨i, hi, j, hj, hx, hy⟩
    omega
  · rintro ⟨hx1, hx2, hy1, hy2⟩
    exact ⟨x - 1, by omega, y - 1, by omega, by omega, by omega⟩

lemma interiorCells_nodup (dX dY : ℕ) : (interiorCells dX dY).Nodup := by
  unfold interiorCells
  refine List.nodup_flatMap.mpr ⟨?_, ?_⟩
  · intro i _
    exact (List.nodup_range _).map (fun a b h => by simpa using h)
  · apply List.Pairwise.imp ?_ (List.pairwise_lt_range _)
    intro a b hab
    simp only [Function.onFun, List.Disjoint, List.mem_map, List.mem_range]
    rintro c ⟨j, _, rfl⟩ ⟨k, _, hk⟩
    have : b + 1 = a + 1 := congrArg Prod.fst hk
    omega

lemma interiorCells_coords {dX dY : ℕ} {c : ℕ × ℕ} (h : c ∈ interiorCells dX dY) :
    1 ≤ c.1 ∧ 1 ≤ c.2 := by
  obtain ⟨x, y⟩ := c
  have h2 := mem_interiorCells.mp h
  exact ⟨h2.1, h2.2.2.1⟩

lemma upd_same (g : Grid) (x y : ℕ) (v : ℚ) : upd g x y v x y = v := by
  simp [upd]

lemma upd_other (g : Grid) (x y a b : ℕ) (v : ℚ) (h : ¬(a = x ∧ b = y)) :
    upd g x y v a b = g a b := by
  simp [upd, h]

/-- A loop writing `f c` into each visited cell `c`, where `f` does not read
the array being written: the final array is the pointwise description. -/
lemma foldl_upd_const (f : ℕ × ℕ → ℚ) :
    ∀ (l : List (ℕ × ℕ)) (g : Grid) (x y : ℕ),
      (l.foldl (fun g c => upd g c.1 c.2 (f c)) g) x y =
        if (x, y) ∈ l then f (x, y) else g x y := by
  intro l
  induction l with
  | nil => intro g x y; simp
  | cons c l ih =>
    intro g x y
    rw [List.foldl_cons, ih]
    by_cases hl : (x, y) ∈ l
    · simp [hl]
    · by_cases hc : (x, y) = c
      · subst hc
        simp [hl, upd_same]
      · have : ¬(x = c.1 ∧ y = c.2) := by
          rintro ⟨h1, h2⟩; exact hc (by rw [h1, h2])
        simp [hl, hc, upd_other _ _ _ _ _ _ this]

/-- A loop updating each visited cell `c` from its own current value only
(`g[c] = h c g[c]`), over a duplicate-free cell list. -/
lemma foldl_upd_self (h : ℕ → ℕ → ℚ → ℚ) :
    ∀ (l : List (ℕ × ℕ)), l.Nodup → ∀ (g : Grid) (x y : ℕ),
      (l.foldl (fun g c => upd g c.1 c.2 (h c.1 c.2 (g c.1 c.2))) g) x y =
        if (x, y) ∈ l then h x y (g x y) else g x y := by
  intro l
  induction l with
  | nil => intro _ g x y; simp
  | cons c l ih =>
    intro hnd g x y
    have hcl : c ∉ l := (List.nodup_cons.mp hnd).1
    rw [List.foldl_cons, ih (List.nodup_cons.mp hnd).2]
    by_cases hl : (x, y) ∈ l
    · have hxc : ¬((x, y) = c) := fun he => hcl (he ▸ hl)
      have : ¬(x = c.1 ∧ y = c.2) := by
        rintro ⟨h1, h2⟩; exact hxc (by rw [h1, h2])
      simp [hl, upd_other _ _ _ _ _ _ this]
    · by_cases hc : (x, y) = c
      · have hx : x = c.1 := by rw [← hc]
        have hy : y = c.2 := by rw [← hc]
        subst hx; subst hy
        simp [hl, upd_same]
      · have : ¬(x = c.1 ∧ y = c.2) := by
          rintro ⟨h1, h2⟩; exact hc (by rw [h1, h2])
        simp [hl, hc, upd_other _ _ _ _ _ _ this]

/-- Characterisation of a running-maximum fold: the result bounds every
element and is either the initial value or an element of the list. -/
lemma foldl_max_spec :
    ∀ (l : List ℚ) (b : ℚ),
      b ≤ l.foldl max b ∧ (∀ a ∈ l, a ≤ l.foldl max b) ∧
        (l.foldl max b = b ∨ l.foldl max b ∈ l) := by
  intro l
  induction l with
  | nil => intro b; simp
  | cons a l ih =>
    intro b
    rw [List.foldl_cons]
    obtain ⟨h1, h2, h3⟩ := ih (max b a)
    refine ⟨le_trans (le_max_left _ _) h1, ?_, ?_⟩
    · intro q hq
      rcases List.mem_cons.mp hq with hq | hq
      · subst hq
        exact le_trans (le_max_right b q) h1
      · exact h2 q hq
    · rcases h3 with h3 | h3
      · rcases max_choice b a with hm | hm
        · exact Or.inl (h3.trans hm)
        · exact Or.inr (List.mem_cons.mpr (Or.inl (h3.trans hm)))
      · exact Or.inr (List.mem_cons.mpr (Or.inr h3))

/-- Sums over the same cell list of pointwise-equal functions agree. -/
lemma foldl_add_congr :
    ∀ (l : List (ℕ × ℕ)) (b : ℚ) (f g : ℕ → ℕ → ℚ),
      (∀ c ∈ l, f c.1 c.2 = g c.1 c.2) →
      l.foldl (fun acc c => acc + f c.1 c.2) b = l.foldl (fun acc c => acc + g c.1 c.2) b := by
  intro l
  induction l with
  | nil => intro b f g _; rfl
  | cons c l ih =>
    intro b f g hfg
    rw [List.foldl_cons, List.foldl_cons, hfg c (List.mem_cons_self c l),
      ih _ f g (fun c' hc' => hfg c' (List.mem_cons_of_mem _ hc'))]

/-- The fixed relaxation factor of `Do_Step`: `const double omega = 1.95`. -/
def omega : ℚ := 1.95

/-- The eligibility test of `Do_Step`'s loop body:
`(x + y + parity_offset) % 2 == parity && source[x][y] != 1`
(with `parity_offset = offset[X_DIR] + offset[Y_DIR]`). -/
def elig (poff parity : ℕ) (src : ℕ → ℕ → Bool) (c : ℕ × ℕ) : Bool :=
  ((c.1 + c.2 + poff) % 2 == parity) && !src c.1 c.2

lemma elig_iff (poff parity : ℕ) (src : ℕ → ℕ → Bool) (c : ℕ × ℕ) :
    elig poff parity src c = true ↔
      ((c.1 + c.2 + poff) % 2 = parity ∧ src c.1 c.2 = false) := by
  simp [elig]

/-- The body of `Do_Step`'s double loop: on an eligible cell, the in-place
over-relaxation update `phi[x][y] = old_phi + omega * c` with
`c = (sum of the four axis neighbours) * 0.25 - old_phi`, and the running
maximum of `fabs(old_phi - phi[x][y])`. -/
def sorBody (poff parity : ℕ) (src : ℕ → ℕ → Bool) (st : Grid × ℚ) (c : ℕ × ℕ) :
    Grid × ℚ :=
  if elig poff parity src c then
    let old_phi := st.1 c.1 c.2
    let cc := (st.1 (c.1 + 1) c.2 + st.1 (c.1 - 1) c.2 +
               st.1 c.1 (c.2 + 1) + st.1 c.1 (c.2 - 1)) * 0.25 - old_phi
    (upd st.1 c.1 c.2 (old_phi + omega * cc),
     max st.2 |old_phi - (old_phi + omega * cc)|)
  else st

/-- The function `Do_Step(parity)`: sweep the interior in loop order, returning the
updated tile and `max_err`. -/
def Do_Step (t : Tile) (parity : ℕ) : Tile × ℚ :=
  let res := (interiorCells t.dimX t.dimY).foldl
    (sorBody (t.offX + t.offY) parity t.source) (t.phi, 0)
  ({ t with phi := res.1 }, res.2)

/-- The SOR update formula evaluated on a fixed base grid. -/
def sorNew (g : Grid) (x y : ℕ) : ℚ :=
  g x y + omega * ((g (x + 1) y + g (x - 1) y + g x (y + 1) + g x (y - 1)) * 0.25 - g x y)

/-- The absolute change `|old - new|` of one SOR update on a fixed base grid. -/
def sorChange (g : Grid) (x y : ℕ) : ℚ := |g x y - sorNew g x y|

/-- Red-black non-interference: over a duplicate-free list of cells with
positive coordinates, the in-place sweep behaves like a simultaneous update
of the eligible cells (their neighbours have opposite parity and are never
written), and the returned error is the running maximum of the per-cell
absolute changes measured on the base grid. -/
lemma sor_fold_spec (poff parity : ℕ) (src : ℕ → ℕ → Bool) (g0 : Grid) :
    ∀ (l : List (ℕ × ℕ)), l.Nodup → (∀ c ∈ l, 1 ≤ c.1 ∧ 1 ≤ c.2) →
      ∀ (g : Grid) (m : ℚ),
      (∀ x y, (x + y + poff) % 2 ≠ parity → g x y = g0 x y) →
      (∀ c ∈ l, g c.1 c.2 = g0 c.1 c.2) →
      (∀ x y, (l.foldl (sorBody poff parity src) (g, m)).1 x y =
          if (x, y) ∈ l ∧ elig poff parity src (x, y) = true
          then sorNew g0 x y else g x y) ∧
      (l.foldl (sorBody poff parity src) (g, m)).2 =
        (l.filter (elig poff parity src)).foldl
          (fun acc c => max acc (sorChange g0 c.1 c.2)) m := by
  intro l
  induction l with
  | nil =>
    intro _ _ g m _ _
    constructor
    · intro x y; simp
    · rfl
  | cons c l ih =>
    intro hnd hco g m hpar horig
    have hcl : c ∉ l := (List.nodup_cons.mp hnd).1
    have hnd' : l.Nodup := (List.nodup_cons.mp hnd).2
    have hco' : ∀ c' ∈ l, 1 ≤ c'.1 ∧ 1 ≤ c'.2 :=
      fun c' hc' => hco c' (List.mem_cons_of_mem _ hc')
    by_cases hE : elig poff parity src c = true
    · -- the head cell is updated in place
      obtain ⟨hparc, hsrcc⟩ := (elig_iff _ _ _ _).mp hE
      have hc1 : 1 ≤ c.1 := (hco c (List.mem_cons_self c l)).1
      have hc2 : 1 ≤ c.2 := (hco c (List.mem_cons_self c l)).2
      -- the four neighbours have opposite parity, hence still hold base values
      have hn1 : g (c.1 + 1) c.2 = g0 (c.1 + 1) c.2 := hpar _ _ (by omega)
      have hn2 : g (c.1 - 1) c.2 = g0 (c.1 - 1) c.2 := hpar _ _ (by omega)
      have hn3 : g c.1 (c.2 + 1) = g0 c.1 (c.2 + 1) := hpar _ _ (by omega)
      have hn4 : g c.1 (c.2 - 1) = g0 c.1 (c.2 - 1) := hpar _ _ (by omega)
      have hold : g c.1 c.2 = g0 c.1 c.2 := horig c (List.mem_cons_self c l)
      have hbody : sorBody poff parity src (g, m) c =
          (upd g c.1 c.2 (sorNew g0 c.1 c.2), max m (sorChange g0 c.1 c.2)) := by
        simp only [sorBody, hE, if_true, hn1, hn2, hn3, hn4, hold]
        rfl
      set g' := upd g c.1 c.2 (sorNew g0 c.1 c.2) with hg'
      have hpar' : ∀ x y, (x + y + poff) % 2 ≠ parity → g' x y = g0 x y := by
        intro x y hxy
        rw [hg', upd_other, hpar x y hxy]
        rintro ⟨rfl, rfl⟩
        exact hxy hparc
      have horig' : ∀ c' ∈ l, g' c'.1 c'.2 = g0 c'.1 c'.2 := by
        intro c' hc'
        have hne : c' ≠ c := fun he => hcl (he ▸ hc')
        rw [hg', upd_other, horig c' (List.mem_cons_of_mem _ hc')]
        rintro ⟨h1, h2⟩
        exact hne (Prod.ext h1 h2)
      obtain ⟨ihg, ihe⟩ := ih hnd' hco' g' (max m (sorChange g0 c.1 c.2)) hpar' horig'
      constructor
      · intro x y
        rw [List.foldl_cons, hbody, ihg x y]
        by_cases hl : (x, y) ∈ l
        · have : (x, y) ∈ c :: l := List.mem_cons_of_mem _ hl
          by_cases hExy : elig poff parity src (x, y) = true
          · simp [hl, hExy, this]
          · have hne : ¬((x, y) = c) := fun he => hExy (he ▸ hE)
            have hne' : ¬(x = c.1 ∧ y = c.2) := by
              rintro ⟨h1, h2⟩; exact hne (by rw [h1, h2])
            simp [hl, hExy, hg', upd_other _ _ _ _ _ _ hne']
        · by_cases hc : (x, y) = c
          · have hx : x = c.1 := by rw [← hc]
            have hy : y = c.2 := by rw [← hc]
            subst hx; subst hy
            simp [hl, hE, upd_same, hg', List.mem_cons]
          · have hne' : ¬(x = c.1 ∧ y = c.2) := by
              rintro ⟨h1, h2⟩; exact hc (by rw [h1, h2])
            have hni : ¬((x, y) ∈ c :: l) := by
              simp [List.mem_cons, hc, hl]
            simp [hl, hni, hg', upd_other _ _ _ _ _ _ hne']
      · rw [List.foldl_cons, hbody, ihe, List.filter_cons_of_pos hE, List.foldl_cons]
    · -- the head cell is skipped
      have hbody : sorBody poff parity src (g, m) c = (g, m) := by
        simp [sorBody, hE]
      obtain ⟨ihg, ihe⟩ := ih hnd' hco' g m hpar
        (fun c' hc' => horig c' (List.mem_cons_of_mem _ hc'))
      constructor
      · intro x y
        rw [List.foldl_cons, hbody, ihg x y]
        by_cases hc : (x, y) = c
        · have hni : ¬((x, y) ∈ l ∧ elig poff parity src (x, y) = true) := by
            rintro ⟨h1, _⟩; exact hcl (hc ▸ h1)
          have h2 : ¬((x, y) ∈ c :: l ∧ elig poff parity src (x, y) = true) := by
            rintro ⟨_, hEx⟩; exact hE (hc ▸ hEx)
          rw [if_neg hni, if_neg h2]
        · have hmm : ((x, y) ∈ c :: l) ↔ ((x, y) ∈ l) := by
            simp [List.mem_cons, hc]
          simp only [hmm]
      · rw [List.foldl_cons, hbody, ihe,
          List.filter_cons_of_neg (by simpa using hE)]

lemma Do_Step_phi (t : Tile) (parity : ℕ) (x y : ℕ) :
    (Do_Step t parity).1.phi x y =
      if (x, y) ∈ interiorCells t.dimX t.dimY ∧
         elig (t.offX + t.offY) parity t.source (x, y) = true
      then sorNew t.phi x y else t.phi x y := by
  have h := sor_fold_spec (t.offX + t.offY) parity t.source t.phi
    (interiorCells t.dimX t.dimY) (interiorCells_nodup _ _)
    (fun c hc => interiorCells_coords hc) t.phi 0 (fun _ _ _ => rfl) (fun _ _ => rfl)
  exact h.1 x y

lemma Do_Step_err (t : Tile) (parity : ℕ) :
    (Do_Step t parity).2 =
      ((interiorCells t.dimX t.dimY).filter (elig (t.offX + t.offY) parity t.source)).foldl
        (fun acc c => max acc (sorChange t.phi c.1 c.2)) 0 := by
  have h := sor_fold_spec (t.offX + t.offY) parity t.source t.phi
    (interiorCells t.dimX t.dimY) (interiorCells_nodup _ _)
    (fun c hc => interiorCells_coords hc) t.phi 0 (fun _ _ _ => rfl) (fun _ _ => rfl)
  exact h.2

lemma Do_Step_err_map (t : Tile) (parity : ℕ) :
    (Do_Step t parity).2 =
      (((interiorCells t.dimX t.dimY).filter (elig (t.offX + t.offY) parity t.source)).map
        (fun c => sorChange t.phi c.1 c.2)).foldl max 0 := by
  rw [Do_Step_err, List.foldl_map]

lemma Do_Step_dimX (t : Tile) (parity : ℕ) : (Do_Step t parity).1.dimX = t.dimX := rfl
lemma Do_Step_dimY (t : Tile) (parity : ℕ) : (Do_Step t parity).1.dimY = t.dimY := rfl
lemma Do_Step_offX (t : Tile) (parity : ℕ) : (Do_Step t parity).1.offX = t.offX := rfl
lemma Do_Step_offY (t : Tile) (parity : ℕ) : (Do_Step t parity).1.offY = t.offY := rfl
lemma Do_Step_source (t : Tile) (parity : ℕ) :
    (Do_Step t parity).1.source = t.source := rfl

/-- The behaviour one `Do_Step(parity)` call must exhibit (claim C2): eligible
interior cells (right global parity, not a source) get the over-relaxed
update, every other cell is untouched, and the returned value is the maximum
absolute change over the updated cells (`0` if none). -/
def DoStepSpec (t : Tile) (parity : ℕ) : Prop :=
  (∀ x y, inInterior t.dimX t.dimY x y →
      (x + y + (t.offX + t.offY)) % 2 = parity → t.source x y = false →
      (Do_Step t parity).1.phi x y =
        t.phi x y + 1.95 * (0.25 * (t.phi (x + 1) y + t.phi (x - 1) y +
          t.phi x (y + 1) + t.phi x (y - 1)) - t.phi x y)) ∧
  (∀ x y, ¬(inInterior t.dimX t.dimY x y ∧
      (x + y + (t.offX + t.offY)) % 2 = parity ∧ t.source x y = false) →
      (Do_Step t parity).1.phi x y = t.phi x y) ∧
  (∀ x y, inInterior t.dimX t.dimY x y →
      (x + y + (t.offX + t.offY)) % 2 = parity → t.source x y = false →
      |t.phi x y - (Do_Step t parity).1.phi x y| ≤ (Do_Step t parity).2) ∧
  ((Do_Step t parity).2 = 0 ∨
    ∃ x y, inInterior t.dimX t.dimY x y ∧
      (x + y + (t.offX + t.offY)) % 2 = parity ∧ t.source x y = false ∧
      (Do_Step t parity).2 = |t.phi x y - (Do_Step t parity).1.phi x y|)

/-- C2: one SOR step updates exactly the interior cells of the given global
parity that are not sources, by `new = old + 1.95 * (0.25 * (neighbour sum) - old)`,
and returns the maximum absolute change over the updated cells (0 if none). -/
theorem do_step_red_black (t : Tile) (parity : ℕ) : DoStepSpec t parity := by
  refine ⟨?_, ?_, ?_, ?_⟩
  · intro x y hin hpar hsrc
    rw [Do_Step_phi,
      if_pos ⟨mem_interiorCells.mpr hin, (elig_iff _ _ _ _).mpr ⟨hpar, hsrc⟩⟩]
    simp only [sorNew, omega]
    ring
  · intro x y hn
    rw [Do_Step_phi, if_neg]
    rintro ⟨hm, hE⟩
    obtain ⟨hpar, hsrc⟩ := (elig_iff _ _ _ _).mp hE
    exact hn ⟨mem_interiorCells.mp hm, hpar, hsrc⟩
  · intro x y hin hpar hsrc
    have hval : (Do_Step t parity).1.phi x y = sorNew t.phi x y := by
      rw [Do_Step_phi,
        if_pos ⟨mem_interiorCells.mpr hin, (elig_iff _ _ _ _).mpr ⟨hpar, hsrc⟩⟩]
    rw [hval, Do_Step_err_map]
    have hmem : sorChange t.phi x y ∈
        (((interiorCells t.dimX t.dimY).filter (elig (t.offX + t.offY) parity t.source)).map
          (fun c => sorChange t.phi c.1 c.2)) := by
      refine List.mem_map.mpr ⟨(x, y), ?_, rfl⟩
      exact List.mem_filter.mpr
        ⟨mem_interiorCells.mpr hin, (elig_iff _ _ _ _).mpr ⟨hpar, hsrc⟩⟩
    exact (foldl_max_spec _ 0).2.1 _ hmem
  · rw [Do_Step_err_map]
    rcases (foldl_max_spec
      (((interiorCells t.dimX t.dimY).filter (elig (t.offX + t.offY) parity t.source)).map
        (fun c => sorChange t.phi c.1 c.2)) 0).2.2 with h | h
    · exact Or.inl h
    · obtain ⟨c, hc, heq⟩ := List.mem_map.mp h
      obtain ⟨cx, cy⟩ := c
      obtain ⟨hm, hE⟩ := List.mem_filter.mp hc
      obtain ⟨hpar, hsrc⟩ := (elig_iff _ _ _ _).mp hE
      refine Or.inr ⟨cx, cy, mem_interiorCells.mp hm, hpar, hsrc, ?_⟩
      have hval : (Do_Step t parity).1.phi cx cy = sorNew t.phi cx cy := by
        rw [Do_Step_phi, if_pos ⟨hm, hE⟩]
      rw [← heq, hval]
      rfl

/-- The CG solver state: the tile plus the arrays `pCG`, `rCG`, `vCG` and the
scalar `global_residue` (MPI_Poisson.c, `#ifdef CG` globals). -/
structure CGState where
  tile : Tile
  pCG : Grid
  rCG : Grid
  vCG : Grid
  global_residue : ℚ

/-- Interior cell list of a CG state's tile. -/
def cgCells (s : CGState) : List (ℕ × ℕ) := interiorCells s.tile.dimX s.tile.dimY

/-- The reduction pattern of the `pdotv` / `rdotr` / `new_rdotr` loops:
`acc += f(x, y)` over the interior. With a single process,
`MPI_Allreduce(..., MPI_SUM, grid_comm)` returns exactly this local sum. -/
def sumCells (l : List (ℕ × ℕ)) (f : ℕ → ℕ → ℚ) : ℚ :=
  l.foldl (fun acc c => acc + f c.1 c.2) 0

/-- First loop of `Do_Step_CG`: `vCG[x][y] = pCG[x][y]`, then for non-source
cells `vCG[x][y] -= (sum of the 4 neighbours of pCG) * 0.25`. -/
def cgV (s : CGState) : Grid :=
  (cgCells s).foldl (fun g c =>
    upd g c.1 c.2 (
      if s.tile.source c.1 c.2 ≠ true then
        s.pCG c.1 c.2 - (s.pCG (c.1 + 1) c.2 + s.pCG (c.1 - 1) c.2 +
          s.pCG c.1 (c.2 + 1) + s.pCG c.1 (c.2 - 1)) * 0.25
      else s.pCG c.1 c.2)) s.vCG

/-- Local `pdotv` summed over the interior; equals `global_pdotv` on one process. -/
def cgPdotv (s : CGState) : ℚ := sumCells (cgCells s) (fun x y => s.pCG x y * cgV s x y)

/-- Step length `a = global_residue / global_pdotv` — computed unconditionally, no guard
against a zero divisor precedes it. -/
def cgA (s : CGState) : ℚ := s.global_residue / cgPdotv s

/-- Update `phi[x][y] += a * pCG[x][y]` over the interior. -/
def cgPhi (s : CGState) : Grid :=
  (cgCells s).foldl (fun g c =>
    upd g c.1 c.2 (g c.1 c.2 + cgA s * s.pCG c.1 c.2)) s.tile.phi

/-- Update `rCG[x][y] -= a * vCG[x][y]` over the interior. -/
def cgR (s : CGState) : Grid :=
  (cgCells s).foldl (fun g c =>
    upd g c.1 c.2 (g c.1 c.2 - cgA s * cgV s c.1 c.2)) s.rCG

/-- Local `new_rdotr` summed over the interior (its single-process global sum). -/
def cgNewRdotr (s : CGState) : ℚ := sumCells (cgCells s) (fun x y => cgR s x y * cgR s x y)

/-- Ratio `g = global_new_rdotr / global_residue` — again unguarded. -/
def cgG (s : CGState) : ℚ := cgNewRdotr s / s.global_residue

/-- Last loop: `pCG[x][y] = rCG[x][y] + g * pCG[x][y]` over the interior. -/
def cgP (s : CGState) : Grid :=
  (cgCells s).foldl (fun g c =>
    upd g c.1 c.2 (cgR s c.1 c.2 + cgG s * g c.1 c.2)) s.pCG

/-- The function `Do_Step_CG`: the phases in program order; `global_residue` is replaced
by the new residual norm. -/
def Do_Step_CG (s : CGState) : CGState :=
  { tile := { s.tile with phi := cgPhi s }, pCG := cgP s, rCG := cgR s, vCG := cgV s,
    global_residue := cgNewRdotr s }

lemma mem_cgCells {s : CGState} {x y : ℕ} :
    (x, y) ∈ cgCells s ↔ inInterior s.tile.dimX s.tile.dimY x y := mem_interiorCells

lemma cgV_eq (s : CGState) (x y : ℕ) :
    cgV s x y =
      if (x, y) ∈ cgCells s then
        (if s.tile.source x y ≠ true then
          s.pCG x y - (s.pCG (x + 1) y + s.pCG (x - 1) y +
            s.pCG x (y + 1) + s.pCG x (y - 1)) * 0.25
        else s.pCG x y)
      else s.vCG x y := by
  unfold cgV
  exact foldl_upd_const
    (fun c => if s.tile.source c.1 c.2 ≠ true then
        s.pCG c.1 c.2 - (s.pCG (c.1 + 1) c.2 + s.pCG (c.1 - 1) c.2 +
          s.pCG c.1 (c.2 + 1) + s.pCG c.1 (c.2 - 1)) * 0.25
      else s.pCG c.1 c.2)
    (cgCells s) s.vCG x y

lemma cgPhi_eq (s : CGState) (x y : ℕ) :
    cgPhi s x y =
      if (x, y) ∈ cgCells s then s.tile.phi x y + cgA s * s.pCG x y
      else s.tile.phi x y := by
  unfold cgPhi
  exact foldl_upd_self (fun x y old => old + cgA s * s.pCG x y)
    (cgCells s) (interiorCells_nodup _ _) s.tile.phi x y

lemma cgR_eq (s : CGState) (x y : ℕ) :
    cgR s x y =
      if (x, y) ∈ cgCells s then s.rCG x y - cgA s * cgV s x y
      else s.rCG x y := by
  unfold cgR
  exact foldl_upd_self (fun x y old => old - cgA s * cgV s x y)
    (cgCells s) (interiorCells_nodup _ _) s.rCG x y

lemma cgP_eq (s : CGState) (x y : ℕ) :
    cgP s x y =
      if (x, y) ∈ cgCells s then cgR s x y + cgG s * s.pCG x y
      else s.pCG x y := by
  unfold cgP
  exact foldl_upd_self (fun x y old => cgR s x y + cgG s * old)
    (cgCells s) (interiorCells_nodup _ _) s.pCG x y

/-- The matrix-vector product as the spec phrases it:
`v = p - 0.25 * (4-neighbour sum of p)` at non-source cells, `v = p` at
source cells. -/
def specV (s : CGState) (x y : ℕ) : ℚ :=
  if s.tile.source x y = true then s.pCG x y
  else s.pCG x y - 0.25 * (s.pCG (x + 1) y + s.pCG (x - 1) y +
    s.pCG x (y + 1) + s.pCG x (y - 1))

/-- The spec's global dot product `p · v`. -/
def specPdotv (s : CGState) : ℚ := sumCells (cgCells s) (fun x y => s.pCG x y * specV s x y)

/-- The spec's step length `a = globalResidue / (global sum of p·v)`. -/
def specA (s : CGState) : ℚ := s.global_residue / specPdotv s

/-- The spec's updated residual `r - a*v`. -/
def specR (s : CGState) (x y : ℕ) : ℚ := s.rCG x y - specA s * specV s x y

/-- The spec's new residual norm: global sum of `r²` after the update. -/
def specNewRdotr (s : CGState) : ℚ :=
  sumCells (cgCells s) (fun x y => specR s x y * specR s x y)

/-- The spec's `gamma = new_rdotr / globalResidue`. -/
def specGamma (s : CGState) : ℚ := specNewRdotr s / s.global_residue

lemma cgV_spec (s : CGState) (x y : ℕ) (h : inInterior s.tile.dimX s.tile.dimY x y) :
    cgV s x y = specV s x y := by
  rw [cgV_eq, if_pos (mem_cgCells.mpr h)]
  unfold specV
  by_cases hs : s.tile.source x y = true
  · have hne : ¬(s.tile.source x y ≠ true) := fun hne => hne hs
    rw [if_neg hne, if_pos hs]
  · rw [if_pos hs, if_neg hs]
    ring

lemma cgPdotv_spec (s : CGState) : cgPdotv s = specPdotv s := by
  unfold cgPdotv specPdotv sumCells
  exact foldl_add_congr (cgCells s) 0 (fun x y => s.pCG x y * cgV s x y)
    (fun x y => s.pCG x y * specV s x y)
    (fun c hc => by simp only []; rw [cgV_spec s c.1 c.2 (mem_cgCells.mp hc)])

lemma cgA_spec (s : CGState) : cgA s = specA s := by
  rw [cgA, specA, cgPdotv_spec]

lemma cgR_spec (s : CGState) (x y : ℕ) (h : inInterior s.tile.dimX s.tile.dimY x y) :
    cgR s x y = specR s x y := by
  rw [cgR_eq, if_pos (mem_cgCells.mpr h), specR, cgA_spec, cgV_spec s x y h]

lemma cgNewRdotr_spec (s : CGState) : cgNewRdotr s = specNewRdotr s := by
  unfold cgNewRdotr specNewRdotr sumCells
  exact foldl_add_congr (cgCells s) 0 (fun x y => cgR s x y * cgR s x y)
    (fun x y => specR s x y * specR s x y)
    (fun c hc => by simp only []; rw [cgR_spec s c.1 c.2 (mem_cgCells.mp hc)])

lemma cgG_spec (s : CGState) : cgG s = specGamma s := by
  rw [cgG, specGamma, cgNewRdotr_spec]

/-- The behaviour one `Do_Step_CG` call must exhibit (claim C3), phrased with
the spec's formulas over the pre-state. -/
def DoStepCGSpec (s : CGState) : Prop :=
  (∀ x y, inInterior s.tile.dimX s.tile.dimY x y →
      (Do_Step_CG s).vCG x y = specV s x y) ∧
  (∀ x y, inInterior s.tile.dimX s.tile.dimY x y →
      (Do_Step_CG s).tile.phi x y = s.tile.phi x y + specA s * s.pCG x y) ∧
  (∀ x y, inInterior s.tile.dimX s.tile.dimY x y →
      (Do_Step_CG s).rCG x y = s.rCG x y - specA s * specV s x y) ∧
  (Do_Step_CG s).global_residue = specNewRdotr s ∧
  (∀ x y, inInterior s.tile.dimX s.tile.dimY x y →
      (Do_Step_CG s).pCG x y = specR s x y + specGamma s * s.pCG x y)

/-- C3: one CG iteration computes `v`, `a`, `phi`, `r`, the new
`globalResidue` and `p` exactly as specified, in that order. -/
theorem do_step_cg_spec (s : CGState) : DoStepCGSpec s := by
  refine ⟨?_, ?_, ?_, ?_, ?_⟩
  · intro x y h
    exact cgV_spec s x y h
  · intro x y h
    show cgPhi s x y = _
    rw [cgPhi_eq, if_pos (mem_cgCells.mpr h), cgA_spec]
  · intro x y h
    show cgR s x y = _
    exact cgR_spec s x y h
  · show cgNewRdotr s = _
    exact cgNewRdotr_spec s
  · intro x y h
    show cgP s x y = _
    rw [cgP_eq, if_pos (mem_cgCells.mpr h), cgG_spec, cgR_spec s x y h]

/-- The value `InitCG` writes into `rCG[x][y]`: `0`, overwritten with
`(sum of the 4 neighbours of phi) * 0.25` when the cell is not a source. -/
def initR (t : Tile) (c : ℕ × ℕ) : ℚ :=
  if t.source c.1 c.2 ≠ true then
    (t.phi (c.1 + 1) c.2 + t.phi (c.1 - 1) c.2 +
     t.phi c.1 (c.2 + 1) + t.phi c.1 (c.2 - 1)) * 0.25
  else 0

/-- The function `InitCG`: fills `rCG` and `pCG = rCG` over the interior while
accumulating `rdotr`; the single-process `MPI_Allreduce` sum gives
`global_residue = rdotr`. The arguments `p0`, `r0`, `v0` are the initial
contents of the `malloc`ed arrays, which the code never zeroes (in
particular the halo rows/columns keep these values). -/
def InitCG (t : Tile) (p0 r0 v0 : Grid) : CGState :=
  let res := (interiorCells t.dimX t.dimY).foldl
    (fun (st : Grid × Grid × ℚ) c =>
      (upd st.1 c.1 c.2 (initR t c), upd st.2.1 c.1 c.2 (initR t c),
       st.2.2 + initR t c * initR t c))
    (r0, p0, 0)
  { tile := t, pCG := res.2.1, rCG := res.1, vCG := v0, global_residue := res.2.2 }

/-- Pointwise description of `InitCG`'s single loop threading
`(rCG, pCG, rdotr)`. -/
lemma foldl_triple_spec (f : ℕ × ℕ → ℚ) :
    ∀ (l : List (ℕ × ℕ)) (st : Grid × Grid × ℚ),
      (∀ x y,
        (l.foldl (fun (st : Grid × Grid × ℚ) c =>
          (upd st.1 c.1 c.2 (f c), upd st.2.1 c.1 c.2 (f c), st.2.2 + f c * f c)) st).1 x y =
          if (x, y) ∈ l then f (x, y) else st.1 x y) ∧
      (∀ x y,
        (l.foldl (fun (st : Grid × Grid × ℚ) c =>
          (upd st.1 c.1 c.2 (f c), upd st.2.1 c.1 c.2 (f c), st.2.2 + f c * f c)) st).2.1 x y =
          if (x, y) ∈ l then f (x, y) else st.2.1 x y) ∧
      ((∀ c ∈ l, f c = 0) →
        (l.foldl (fun (st : Grid × Grid × ℚ) c =>
          (upd st.1 c.1 c.2 (f c), upd st.2.1 c.1 c.2 (f c), st.2.2 + f c * f c)) st).2.2 =
          st.2.2) := by
  intro l
  induction l with
  | nil =>
    intro st
    refine ⟨fun x y => by simp, fun x y => by simp, fun _ => rfl⟩
  | cons c l ih =>
    intro st
    obtain ⟨ih1, ih2, ih3⟩ := ih
      (upd st.1 c.1 c.2 (f c), upd st.2.1 c.1 c.2 (f c), st.2.2 + f c * f c)
    refine ⟨?_, ?_, ?_⟩
    · intro x y
      rw [List.foldl_cons, ih1 x y]
      by_cases hl : (x, y) ∈ l
      · simp [hl]
      · by_cases hc : (x, y) = c
        · have hx : x = c.1 := by rw [← hc]
          have hy : y = c.2 := by rw [← hc]
          subst hx; subst hy
          simp [hl, upd_same]
        · have hne : ¬(x = c.1 ∧ y = c.2) := by
            rintro ⟨h1, h2⟩; exact hc (by rw [h1, h2])
          simp [hl, hc, upd_other _ _ _ _ _ _ hne]
    · intro x y
      rw [List.foldl_cons, ih2 x y]
      by_cases hl : (x, y) ∈ l
      · simp [hl]
      · by_cases hc : (x, y) = c
        · have hx : x = c.1 := by rw [← hc]
          have hy : y = c.2 := by rw [← hc]
          subst hx; subst hy
          simp [hl, upd_same]
        · have hne : ¬(x = c.1 ∧ y = c.2) := by
            rintro ⟨h1, h2⟩; exact hc (by rw [h1, h2])
          simp [hl, hc, upd_other _ _ _ _ _ _ hne]
    · intro hz
      rw [List.foldl_cons]
      have hc0 : f c = 0 := hz c (List.mem_cons_self c l)
      have := ih3 (fun c' hc' => hz c' (List.mem_cons_of_mem _ hc'))
      simp only [hc0] at this ⊢
      rw [this]
      ring

lemma InitCG_rCG (t : Tile) (p0 r0 v0 : Grid) (x y : ℕ) :
    (InitCG t p0 r0 v0).rCG x y =
      if (x, y) ∈ interiorCells t.dimX t.dimY then initR t (x, y) else r0 x y :=
  (foldl_triple_spec (initR t) (interiorCells t.dimX t.dimY) (r0, p0, 0)).1 x y

lemma InitCG_pCG (t : Tile) (p0 r0 v0 : Grid) (x y : ℕ) :
    (InitCG t p0 r0 v0).pCG x y =
      if (x, y) ∈ interiorCells t.dimX t.dimY then initR t (x, y) else p0 x y :=
  (foldl_triple_spec (initR t) (interiorCells t.dimX t.dimY) (r0, p0, 0)).2.1 x y

lemma InitCG_residue_zero (t : Tile) (p0 r0 v0 : Grid)
    (hz : ∀ c ∈ interiorCells t.dimX t.dimY, initR t c = 0) :
    (InitCG t p0 r0 v0).global_residue = 0 :=
  (foldl_triple_spec (initR t) (interiorCells t.dimX t.dimY) (r0, p0, 0)).2.2 hz

/-- The function `Exchange_Borders` on a single process: the process grid is 1×1 and
non-periodic, so all four neighbour ranks are `MPI_PROC_NULL` and each
`MPI_Sendrecv` is a no-op; the state is unchanged. -/
def Exchange_Borders_single (s : CGState) : CGState := s

/-- Single-process `Exchange_Borders` in SOR mode (same reasoning). -/
def Exchange_Borders_SOR_single (t : Tile) : Tile := t

/-- One CG loop iteration of `Solve`: `Exchange_Borders(); Do_Step_CG();`. -/
def cgIterationStep (s : CGState) : CGState := Do_Step_CG (Exchange_Borders_single s)

/-- The CG `while` loop of `Solve`:
`while (global_residue > precision_goal && count < max_iter)`. -/
def SolveCGAux (precision_goal : ℚ) (max_iter : ℕ) (s : CGState) (count : ℕ) :
    CGState × ℕ :=
  if h : precision_goal < s.global_residue ∧ count < max_iter then
    SolveCGAux precision_goal max_iter (cgIterationStep s) (count + 1)
  else (s, count)
termination_by max_iter - count
decreasing_by
  obtain ⟨h1, h2⟩ := h
  omega

/-- The CG branch of `Solve`: `InitCG()` then the loop; returns the final
state and the printed iteration count. -/
def SolveCG (precision_goal : ℚ) (max_iter : ℕ) (t : Tile) (p0 r0 v0 : Grid) :
    CGState × ℕ :=
  SolveCGAux precision_goal max_iter (InitCG t p0 r0 v0) 0

/-- One SOR loop iteration of `Solve`: `delta1 = Do_Step(0);
Exchange_Borders(); delta2 = Do_Step(1); Exchange_Borders();
delta = max(delta1, delta2)`; the single-process `MPI_Allreduce` max gives
`global_delta = delta`. -/
def sorIteration (t : Tile) : Tile × ℚ :=
  let r1 := Do_Step t 0
  let t1 := Exchange_Borders_SOR_single r1.1
  let r2 := Do_Step t1 1
  let t2 := Exchange_Borders_SOR_single r2.1
  (t2, max r1.2 r2.2)

/-- The SOR `while` loop of `Solve`:
`while (global_delta > precision_goal && count < max_iter)`. -/
def SolveSORAux (precision_goal : ℚ) (max_iter : ℕ) (t : Tile) (global_delta : ℚ)
    (count : ℕ) : Tile × ℚ × ℕ :=
  if h : precision_goal < global_delta ∧ count < max_iter then
    SolveSORAux precision_goal max_iter (sorIteration t).1 (sorIteration t).2 (count + 1)
  else (t, global_delta, count)
termination_by max_iter - count
decreasing_by
  obtain ⟨h1, h2⟩ := h
  omega

/-- The SOR branch of `Solve`: `global_delta = 2 * precision_goal` before the
loop; returns the final tile, the last `global_delta` and the count. -/
def SolveSOR (precision_goal : ℚ) (max_iter : ℕ) (t : Tile) : Tile × ℚ × ℕ :=
  SolveSORAux precision_goal max_iter t (2 * precision_goal) 0

/-- State after `n` CG loop iterations. -/
def cgIterate (s : CGState) (n : ℕ) : CGState := cgIterationStep^[n] s

/-- One SOR iteration acting on the `(tile, global_delta)` pair. -/
def sorStepPair (p : Tile × ℚ) : Tile × ℚ := sorIteration p.1

/-- The pair `(tile, global_delta)` after `n` SOR loop iterations, starting from the
initial `global_delta = 2 * precision_goal`. -/
def sorIterate (precision_goal : ℚ) (t : Tile) (n : ℕ) : Tile × ℚ :=
  sorStepPair^[n] (t, 2 * precision_goal)

/-- Full characterisation of the CG `while` loop: it runs some `k` further
iterations, every iteration it entered had `global_residue > precision_goal`,
and on exit either the metric is at or below the goal or the counter hit
`max_iter`. -/
lemma SolveCGAux_spec (goal : ℚ) (mi : ℕ) :
    ∀ (n c : ℕ) (s : CGState), mi - c = n → c ≤ mi →
      ∃ k, SolveCGAux goal mi s c = (cgIterationStep^[k] s, c + k) ∧ c + k ≤ mi ∧
        (∀ j < k, goal < (cgIterationStep^[j] s).global_residue) ∧
        ((cgIterationStep^[k] s).global_residue ≤ goal ∨ c + k = mi) := by
  intro n
  induction n with
  | zero =>
    intro c s hn hc
    refine ⟨0, ?_, by omega, fun j hj => absurd hj (Nat.not_lt_zero j), Or.inr (by omega)⟩
    rw [SolveCGAux, dif_neg]
    · simp
    · rintro ⟨_, h2⟩
      omega
  | succ n ih =>
    intro c s hn hc
    by_cases hcond : goal < s.global_residue ∧ c < mi
    · obtain ⟨k, hk1, hk2, hk3, hk4⟩ := ih (c + 1) (cgIterationStep s) (by omega) (by omega)
      refine ⟨k + 1, ?_, by omega, ?_, ?_⟩
      · rw [SolveCGAux, dif_pos hcond, hk1, Function.iterate_succ_apply]
        have hnat : c + 1 + k = c + (k + 1) := by omega
        rw [hnat]
      · intro j hj
        cases j with
        | zero => simpa using hcond.1
        | succ j =>
          rw [Function.iterate_succ_apply]
          exact hk3 j (by omega)
      · rw [Function.iterate_succ_apply]
        rcases hk4 with h | h
        · exact Or.inl h
        · exact Or.inr (by omega)
    · refine ⟨0, ?_, by omega, fun j hj => absurd hj (Nat.not_lt_zero j), ?_⟩
      · rw [SolveCGAux, dif_neg hcond]
        simp
      · rcases not_and_or.mp hcond with h | h
        · exact Or.inl (not_lt.mp h)
        · exact Or.inr (by omega)

/-- The same characterisation for the SOR `while` loop, on the
`(tile, global_delta)` pair. -/
lemma SolveSORAux_spec (goal : ℚ) (mi : ℕ) :
    ∀ (n c : ℕ) (t : Tile) (d : ℚ), mi - c = n → c ≤ mi →
      ∃ k, SolveSORAux goal mi t d c =
          ((sorStepPair^[k] (t, d)).1, (sorStepPair^[k] (t, d)).2, c + k) ∧ c + k ≤ mi ∧
        (∀ j < k, goal < (sorStepPair^[j] (t, d)).2) ∧
        ((sorStepPair^[k] (t, d)).2 ≤ goal ∨ c + k = mi) := by
  intro n
  induction n with
  | zero =>
    intro c t d hn hc
    refine ⟨0, ?_, by omega, fun j hj => absurd hj (Nat.not_lt_zero j), Or.inr (by omega)⟩
    rw [SolveSORAux, dif_neg]
    · simp
    · rintro ⟨_, h2⟩
      omega
  | succ n ih =>
    intro c t d hn hc
    by_cases hcond : goal < d ∧ c < mi
    · obtain ⟨k, hk1, hk2, hk3, hk4⟩ :=
        ih (c + 1) (sorIteration t).1 (sorIteration t).2 (by omega) (by omega)
      have hb : ((sorIteration t).1, (sorIteration t).2) = sorStepPair (t, d) := rfl
      rw [hb] at hk1 hk3 hk4
      refine ⟨k + 1, ?_, by omega, ?_, ?_⟩
      · rw [SolveSORAux, dif_pos hcond, hk1, Function.iterate_succ_apply]
        have hnat : c + 1 + k = c + (k + 1) := by omega
        rw [hnat]
      · intro j hj
        cases j with
        | zero => simpa using hcond.1
        | succ j =>
          rw [Function.iterate_succ_apply]
          exact hk3 j (by omega)
      · rw [Function.iterate_succ_apply]
        rcases hk4 with h | h
        · exact Or.inl h
        · exact Or.inr (by omega)
    · refine ⟨0, ?_, by omega, fun j hj => absurd hj (Nat.not_lt_zero j), ?_⟩
      · rw [SolveSORAux, dif_neg hcond]
        simp
      · rcases not_and_or.mp hcond with h | h
        · exact Or.inl (not_lt.mp h)
        · exact Or.inr (by omega)

/-- What the convergence controller guarantees (claim C7), in both modes:
the reported count never exceeds `max_iter`, the returned state is the
`count`-fold iterate, every entered iteration had its metric above
`precision_goal`, and on exit the metric is at or below the goal or the
count equals `max_iter`. -/
def SolveLoopSpec (goal : ℚ) (mi : ℕ) (t : Tile) (p0 r0 v0 : Grid) : Prop :=
  ((SolveSOR goal mi t).2.2 ≤ mi ∧
   ((SolveSOR goal mi t).1, (SolveSOR goal mi t).2.1) =
     sorIterate goal t (SolveSOR goal mi t).2.2 ∧
   (∀ j < (SolveSOR goal mi t).2.2, goal < (sorIterate goal t j).2) ∧
   ((sorIterate goal t (SolveSOR goal mi t).2.2).2 ≤ goal ∨
     (SolveSOR goal mi t).2.2 = mi)) ∧
  ((SolveCG goal mi t p0 r0 v0).2 ≤ mi ∧
   (SolveCG goal mi t p0 r0 v0).1 =
     cgIterate (InitCG t p0 r0 v0) (SolveCG goal mi t p0 r0 v0).2 ∧
   (∀ j < (SolveCG goal mi t p0 r0 v0).2,
     goal < (cgIterate (InitCG t p0 r0 v0) j).global_residue) ∧
   ((cgIterate (InitCG t p0 r0 v0) (SolveCG goal mi t p0 r0 v0).2).global_residue ≤ goal ∨
     (SolveCG goal mi t p0 r0 v0).2 = mi))

/-- C7: the solve loop stops exactly when the global metric reaches the
precision goal or the counter reaches `max_iter`, in both SOR and CG
modes, and reports the iteration count. -/
theorem solve_loop_controller (goal : ℚ) (mi : ℕ) (t : Tile) (p0 r0 v0 : Grid)
    (hgoal : 0 < goal) (hmi : 0 < mi) : SolveLoopSpec goal mi t p0 r0 v0 := by
  obtain ⟨k, hk1, hk2, hk3, hk4⟩ :=
    SolveSORAux_spec goal mi mi 0 t (2 * goal) rfl (by omega)
  obtain ⟨k', hk1', hk2', hk3', hk4'⟩ :=
    SolveCGAux_spec goal mi mi 0 (InitCG t p0 r0 v0) rfl (by omega)
  rw [Nat.zero_add] at hk1 hk2 hk4 hk1' hk2' hk4'
  unfold SolveLoopSpec SolveSOR SolveCG
  rw [hk1, hk1']
  exact ⟨⟨hk2, rfl, hk3, hk4⟩, hk2', rfl, hk3', hk4'⟩

/-- A concrete all-zero source-free 3×4 tile. -/
def tileW : Tile :=
  { dimX := 3, dimY := 4, offX := 0, offY := 0,
    source := fun _ _ => false, phi := fun _ _ => 0 }

/-- The all-zero grid. -/
def gridZ : Grid := fun _ _ => 0

theorem solve_loop_controller_witness :
    (0 : ℚ) < 1 ∧ (0 : ℕ) < 1 ∧ SolveLoopSpec 1 1 tileW gridZ gridZ gridZ :=
  ⟨by norm_num, by norm_num,
    solve_loop_controller 1 1 tileW gridZ gridZ gridZ (by norm_num) (by norm_num)⟩

lemma Do_Step_phi_source (t : Tile) (parity : ℕ) (x y : ℕ) (h : t.source x y = true) :
    (Do_Step t parity).1.phi x y = t.phi x y := by
  rw [Do_Step_phi, if_neg]
  rintro ⟨_, hE⟩
  obtain ⟨_, hsrc⟩ := (elig_iff _ _ _ _).mp hE
  exact Bool.noConfusion (h.symm.trans hsrc)

/-- Applying a sequence of `Do_Step` calls with the given parities. -/
def sorSteps (t : Tile) (ps : List ℕ) : Tile :=
  ps.foldl (fun t par => (Do_Step t par).1) t

lemma sorSteps_source (ps : List ℕ) : ∀ (t : Tile) (x y : ℕ), t.source x y = true →
    (sorSteps t ps).phi x y = t.phi x y := by
  induction ps with
  | nil => intro t x y _; rfl
  | cons par ps ih =>
    intro t x y h
    have hsrc : (Do_Step t par).1.source x y = true := h
    calc (sorSteps t (par :: ps)).phi x y
        = (sorSteps (Do_Step t par).1 ps).phi x y := rfl
      _ = (Do_Step t par).1.phi x y := ih _ x y hsrc
      _ = t.phi x y := Do_Step_phi_source t par x y h

/-- The CG invariant behind source fixation: the search direction and the
residual vanish at every interior source cell. -/
def cgInv (s : CGState) : Prop :=
  ∀ x y, inInterior s.tile.dimX s.tile.dimY x y → s.tile.source x y = true →
    s.pCG x y = 0 ∧ s.rCG x y = 0

lemma InitCG_inv (t : Tile) (p0 r0 v0 : Grid) : cgInv (InitCG t p0 r0 v0) := by
  intro x y hin hsrc
  have hmem : (x, y) ∈ interiorCells t.dimX t.dimY := mem_interiorCells.mpr hin
  have hsrc2 : t.source x y = true := hsrc
  have h0 : initR t (x, y) = 0 := by
    unfold initR
    rw [if_neg]
    simp [hsrc2]
  constructor
  · rw [InitCG_pCG, if_pos hmem, h0]
  · rw [InitCG_rCG, if_pos hmem, h0]

lemma Do_Step_CG_inv (s : CGState) (h : cgInv s) : cgInv (Do_Step_CG s) := by
  intro x y hin hsrc
  have hin' : inInterior s.tile.dimX s.tile.dimY x y := hin
  have hsrc' : s.tile.source x y = true := hsrc
  obtain ⟨hp, hr⟩ := h x y hin' hsrc'
  have hv : cgV s x y = 0 := by
    rw [cgV_eq, if_pos (mem_cgCells.mpr hin'), if_neg, hp]
    simp [hsrc']
  have hrnew : cgR s x y = 0 := by
    rw [cgR_eq, if_pos (mem_cgCells.mpr hin'), hr, hv]
    ring
  constructor
  · show cgP s x y = 0
    rw [cgP_eq, if_pos (mem_cgCells.mpr hin'), hrnew, hp]
    ring
  · show cgR s x y = 0
    exact hrnew

lemma Do_Step_CG_phi_source (s : CGState) (h : cgInv s) (x y : ℕ)
    (hsrc : s.tile.source x y = true) :
    (Do_Step_CG s).tile.phi x y = s.tile.phi x y := by
  show cgPhi s x y = _
  rw [cgPhi_eq]
  by_cases hin : (x, y) ∈ cgCells s
  · rw [if_pos hin]
    obtain ⟨hp, _⟩ := h x y (mem_cgCells.mp hin) hsrc
    rw [hp]
    ring
  · rw [if_neg hin]

lemma cgIterate_source_phi : ∀ (n : ℕ) (s : CGState), cgInv s →
    cgInv (cgIterate s n) ∧
    (cgIterate s n).tile.source = s.tile.source ∧
    (∀ x y, s.tile.source x y = true →
      (cgIterate s n).tile.phi x y = s.tile.phi x y) := by
  intro n
  induction n with
  | zero => intro s hs; exact ⟨hs, rfl, fun _ _ _ => rfl⟩
  | succ n ih =>
    intro s hs
    obtain ⟨h1, h4, h5⟩ := ih s hs
    have hstep : cgIterate s (n + 1) = Do_Step_CG (cgIterate s n) := by
      unfold cgIterate
      rw [Function.iterate_succ_apply']
      rfl
    refine ⟨?_, ?_, ?_⟩
    · rw [hstep]
      exact Do_Step_CG_inv _ h1
    · rw [hstep]
      show (cgIterate s n).tile.source = s.tile.source
      exact h4
    · intro x y hxy
      rw [hstep, Do_Step_CG_phi_source _ h1 x y (by rw [h4]; exact hxy)]
      exact h5 x y hxy

/-- What source fixation demands (claim C4): across any sequence of SOR
steps and any number of CG iterations (started from `InitCG`), `phi` at
every source cell keeps its load-time value. -/
def SourceFixationSpec (t : Tile) (p0 r0 v0 : Grid) : Prop :=
  (∀ (ps : List ℕ) (x y : ℕ), t.source x y = true →
    (sorSteps t ps).phi x y = t.phi x y) ∧
  (∀ (n : ℕ) (x y : ℕ), t.source x y = true →
    (cgIterate (InitCG t p0 r0 v0) n).tile.phi x y = t.phi x y)

/-- C4: a source cell's `phi` value is never changed by any number of solver
steps, in SOR mode and in CG mode (where `p` and `r` stay zero at interior
source cells). -/
theorem source_fixation (t : Tile) (p0 r0 v0 : Grid) : SourceFixationSpec t p0 r0 v0 := by
  constructor
  · intro ps x y h
    exact sorSteps_source ps t x y h
  · intro n x y h
    exact (cgIterate_source_phi n (InitCG t p0 r0 v0) (InitCG_inv t p0 r0 v0)).2.2 x y h

/-- What the trivial-case claim C8 demands: zero residue at initialisation
and an immediate exit with count 0. -/
def CGTrivialSpec (goal : ℚ) (mi : ℕ) (t : Tile) (p0 r0 v0 : Grid) : Prop :=
  (InitCG t p0 r0 v0).global_residue = 0 ∧ (SolveCG goal mi t p0 r0 v0).2 = 0

/-- C8: a single-process, source-free, all-zero field gives
`global_residue = 0` at `InitCG` and the CG loop reports 0 iterations. -/
theorem cg_trivial_case (goal : ℚ) (mi : ℕ) (t : Tile) (p0 r0 v0 : Grid)
    (hphi : ∀ x y, t.phi x y = 0) (hsrc : ∀ x y, t.source x y = false)
    (hgoal : 0 < goal) : CGTrivialSpec goal mi t p0 r0 v0 := by
  have hres : (InitCG t p0 r0 v0).global_residue = 0 := by
    apply InitCG_residue_zero
    intro c _
    unfold initR
    split
    · rw [hphi, hphi, hphi, hphi]
      ring
    · rfl
  refine ⟨hres, ?_⟩
  have hcond : ¬(goal < (InitCG t p0 r0 v0).global_residue ∧ 0 < mi) := by
    rintro ⟨h1, _⟩
    rw [hres] at h1
    linarith
  unfold SolveCG
  rw [SolveCGAux, dif_neg hcond]

theorem cg_trivial_case_witness : CGTrivialSpec 1 5 tileW gridZ gridZ gridZ :=
  cg_trivial_case 1 5 tileW gridZ gridZ gridZ (fun _ _ => rfl) (fun _ _ => rfl)
    (by norm_num)

/-- What claim C9 demands of `max_iter = 0`: both loops exit at once with
count 0 and the field untouched (in CG mode `InitCG` runs but does not
write `phi`). -/
def MaxIterZeroSpec (goal : ℚ) (t : Tile) (p0 r0 v0 : Grid) : Prop :=
  SolveSOR goal 0 t = (t, 2 * goal, 0) ∧
  (SolveCG goal 0 t p0 r0 v0).2 = 0 ∧
  (SolveCG goal 0 t p0 r0 v0).1.tile.phi = t.phi

/-- C9: with `max_iter = 0` the solve loop terminates immediately, reports
count 0 and leaves `phi` exactly as loaded, in both modes. -/
theorem max_iter_zero (goal : ℚ) (t : Tile) (p0 r0 v0 : Grid) :
    MaxIterZeroSpec goal t p0 r0 v0 := by
  have hS : ¬(goal < 2 * goal ∧ 0 < 0) := by
    rintro ⟨_, h⟩
    omega
  have hC : ¬(goal < (InitCG t p0 r0 v0).global_residue ∧ 0 < 0) := by
    rintro ⟨_, h⟩
    omega
  refine ⟨?_, ?_, ?_⟩
  · unfold SolveSOR
    rw [SolveSORAux, dif_neg hS]
  · unfold SolveCG
    rw [SolveCGAux, dif_neg hC]
  · unfold SolveCG
    rw [SolveCGAux, dif_neg hC]
    rfl

/-- The tile of the division-by-zero scenario: one process, `nx = 1`,
`ny = 2` (so `dim = 3×4`), with a source of value 4 at interior cell
`(1,1)`. -/
def tileDiv : Tile :=
  { dimX := 3, dimY := 4, offX := 0, offY := 0,
    source := fun x y => x == 1 && y == 1,
    phi := fun x y => if x = 1 ∧ y = 1 then 4 else 0 }

/-- Contents of the `malloc`ed `pCG` array before `InitCG` overwrites its
interior: the code never initialises the halo cells, so they keep whatever
the allocation held — here the value 4 in halo cell `(0,2)`. -/
def pGarbage : Grid := fun x y => if x = 0 ∧ y = 2 then 4 else 0

/-- The state right after `InitCG` on `tileDiv` (so reachable at the first
loop iteration of `Solve` in CG mode). -/
def stateDiv : CGState := InitCG tileDiv pGarbage gridZ gridZ

lemma stateDiv_pCG_11 : stateDiv.pCG 1 1 = 0 := by
  show (InitCG tileDiv pGarbage gridZ gridZ).pCG 1 1 = 0
  rw [InitCG_pCG, if_pos (by decide)]
  unfold initR
  rw [if_neg (by decide)]

lemma stateDiv_pCG_12 : stateDiv.pCG 1 2 = 1 := by
  show (InitCG tileDiv pGarbage gridZ gridZ).pCG 1 2 = 1
  rw [InitCG_pCG, if_pos (by decide)]
  unfold initR
  rw [if_pos (by decide)]
  norm_num [tileDiv]

lemma stateDiv_pCG_02 : stateDiv.pCG 0 2 = 4 := by
  show (InitCG tileDiv pGarbage gridZ gridZ).pCG 0 2 = 4
  rw [InitCG_pCG, if_neg (by decide)]
  norm_num [pGarbage]

lemma stateDiv_pCG_22 : stateDiv.pCG 2 2 = 0 := by
  show (InitCG tileDiv pGarbage gridZ gridZ).pCG 2 2 = 0
  rw [InitCG_pCG, if_neg (by decide)]
  norm_num [pGarbage]

lemma stateDiv_pCG_13 : stateDiv.pCG 1 3 = 0 := by
  show (InitCG tileDiv pGarbage gridZ gridZ).pCG 1 3 = 0
  rw [InitCG_pCG, if_neg (by decide)]
  norm_num [pGarbage]

lemma cgV_stateDiv_11 : cgV stateDiv 1 1 = 0 := by
  rw [cgV_eq, if_pos (by decide), if_neg (by decide)]
  exact stateDiv_pCG_11

lemma cgV_stateDiv_12 : cgV stateDiv 1 2 = 0 := by
  rw [cgV_eq, if_pos (by decide), if_pos (by decide), stateDiv_pCG_12,
    stateDiv_pCG_22, stateDiv_pCG_02, stateDiv_pCG_13, stateDiv_pCG_11]
  norm_num

lemma stateDiv_residue : stateDiv.global_residue = 1 := by
  show (InitCG tileDiv pGarbage gridZ gridZ).global_residue = 1
  unfold InitCG
  rw [show interiorCells tileDiv.dimX tileDiv.dimY = [(1, 1), (1, 2)] from rfl]
  simp only [List.foldl_cons, List.foldl_nil]
  norm_num [initR, tileDiv]

lemma stateDiv_pdotv : cgPdotv stateDiv = 0 := by
  unfold cgPdotv sumCells
  rw [show cgCells stateDiv = [(1, 1), (1, 2)] from rfl]
  simp only [List.foldl_cons, List.foldl_nil]
  norm_num [cgV_stateDiv_11, cgV_stateDiv_12, stateDiv_pCG_11, stateDiv_pCG_12]

/-- C10: `Do_Step_CG` divides by `global_pdotv` with no guard: at
`stateDiv` — reached right after `InitCG`, i.e. at the first loop
iteration of `Solve` in CG mode — the loop guard holds for
`precision_goal = 1/2` (`global_residue = 1 > 1/2`), yet the divisor
`global_pdotv` computed by `Do_Step_CG` is exactly `0`, so the step length
is computed as `a = global_residue / 0`. -/
theorem cg_unguarded_division :
    (1/2 : ℚ) < stateDiv.global_residue ∧ cgPdotv stateDiv = 0 ∧
    cgA stateDiv = stateDiv.global_residue / 0 := by
  refine ⟨?_, stateDiv_pdotv, ?_⟩
  · rw [stateDiv_residue]
    norm_num
  · unfold cgA
    rw [stateDiv_pdotv]

/-- Per-axis tile offset computed by `Setup_Grid`:
`offset = gridsize * proc_coord / P_grid` (C integer division). The
exclusive upper bound of a tile is the next coordinate's offset
(`upper_offset = gridsize * (proc_coord + 1) / P_grid`). -/
def offsetFor (gridsize Pgrid coord : ℕ) : ℕ := gridsize * coord / Pgrid

/-- What claim C1 demands of the partition on one axis of size `n` split
over `Pg` processes: offsets start at `0`, end at `n`, are monotone
(contiguity of `[offset c, offset (c+1))`), and every cell `i < n` lies in
exactly one tile's interval. -/
def PartitionSpec (n Pg i : ℕ) : Prop :=
  offsetFor n Pg 0 = 0 ∧ offsetFor n Pg Pg = n ∧
  (∀ c c', c ≤ c' → offsetFor n Pg c ≤ offsetFor n Pg c') ∧
  ∃! c, c < Pg ∧ offsetFor n Pg c ≤ i ∧ i < offsetFor n Pg (c + 1)

/-- C1: the floor-division intervals `[n*c/Pg, n*(c+1)/Pg)` for
`c = 0 .. Pg-1` are contiguous, pairwise disjoint and tile `[0, n)`
exactly: every cell belongs to exactly one process's interior. -/
theorem partition_coverage (n Pg i : ℕ) (hn : 1 ≤ n) (hP : 1 ≤ Pg) (hi : i < n) :
    PartitionSpec n Pg i := by
  have h0 : offsetFor n Pg 0 = 0 := by simp [offsetFor]
  have hPg : offsetFor n Pg Pg = n := by
    unfold offsetFor
    exact Nat.mul_div_cancel n (by omega)
  have hmono : ∀ c c', c ≤ c' → offsetFor n Pg c ≤ offsetFor n Pg c' := by
    intro c c' h
    exact Nat.div_le_div_right (Nat.mul_le_mul_left n h)
  refine ⟨h0, hPg, hmono, ?_⟩
  have hdec : DecidablePred (fun c => offsetFor n Pg c ≤ i) := fun c => inferInstance
  set c0 := Nat.findGreatest (fun c => offsetFor n Pg c ≤ i) Pg with hc0
  have hP0 : offsetFor n Pg 0 ≤ i := by rw [h0]; omega
  have hspec : offsetFor n Pg c0 ≤ i :=
    Nat.findGreatest_spec (P := fun c => offsetFor n Pg c ≤ i) (Nat.zero_le Pg) hP0
  have hle : c0 ≤ Pg := Nat.findGreatest_le Pg
  have hlt : c0 < Pg := by
    rcases Nat.lt_or_ge c0 Pg with h | h
    · exact h
    · have : c0 = Pg := by omega
      rw [this, hPg] at hspec
      omega
  have hup : i < offsetFor n Pg (c0 + 1) := by
    by_contra hcon
    push_neg at hcon
    exact Nat.findGreatest_is_greatest (P := fun c => offsetFor n Pg c ≤ i)
      (Nat.lt_succ_self c0) (by omega) hcon
  refine ⟨c0, ⟨hlt, hspec, hup⟩, ?_⟩
  rintro c' ⟨hc'P, hc'le, hc'up⟩
  rcases Nat.lt_trichotomy c' c0 with h | h | h
  · exfalso
    have : offsetFor n Pg (c' + 1) ≤ offsetFor n Pg c0 := hmono _ _ (by omega)
    omega
  · exact h
  · exfalso
    exact Nat.findGreatest_is_greatest (P := fun c => offsetFor n Pg c ≤ i) h (by omega) hc'le

theorem partition_coverage_witness : PartitionSpec 10 3 4 :=
  partition_coverage 10 3 4 (by norm_num) (by norm_num) (by norm_num)

/-- An `MPI_Type_vector(count, blocklength, stride, MPI_DOUBLE, ...)`
descriptor. -/
structure VectorType where
  count : ℕ
  blocklength : ℕ
  stride : ℕ
  deriving DecidableEq

/-- From `Setup_MPI_Datatypes`: the descriptor used for vertical data exchange
(`border_type[Y_DIR]`, passed to the `proc_top`/`proc_bottom` sendrecvs):
`MPI_Type_vector(dim[X_DIR] - 2, 1, dim[Y_DIR], MPI_DOUBLE, ...)`. -/
def border_type_Y (dX dY : ℕ) : VectorType := ⟨dX - 2, 1, dY⟩

/-- From `Setup_MPI_Datatypes`: the descriptor used for horizontal data exchange
(`border_type[X_DIR]`, passed to the `proc_left`/`proc_right` sendrecvs):
`MPI_Type_vector(dim[Y_DIR] - 2, 1, 1, MPI_DOUBLE, ...)`. -/
def border_type_X (dX dY : ℕ) : VectorType := ⟨dY - 2, 1, 1⟩

/-- Flat index of `phi[x][y]` in the contiguous allocation
(`phi[x] = phi[0] + x * dim[Y_DIR]`). -/
def flatIdx (dY x y : ℕ) : ℕ := x * dY + y

/-- The flat element addresses a strided descriptor touches, from a base
address (blocklength 1). -/
def typeAddrs (T : VectorType) (base : ℕ) : List ℕ :=
  (List.range T.count).map (fun i => base + i * T.stride)

/-- C6 counterexample: the claim asserts stride 1 for the vertical
(top/bottom) descriptor and stride `dim_y` for the horizontal (left/right)
one. At `dim = (5, 7)` the vertical descriptor's stride is `7 = dim_y`,
not 1, and the horizontal descriptor's stride is `1`, not `7`: the claim
swaps the two strides. -/
theorem border_type_claim_false :
    ¬((border_type_Y 5 7).stride = 1) ∧ ¬((border_type_X 5 7).stride = 7) := by
  decide

/-- C6 (amended): the descriptor used for vertical (top/bottom) exchanges
covers `count = dim_x - 2` (interior height) elements at
stride = `dim_y` (the row length) — from base `phi[1][y0]` it addresses
exactly the column cells `phi[1..dimX-2][y0]` — while the descriptor used
for horizontal (left/right) exchanges covers `count = dim_y - 2` (interior
width) elements at stride 1 — the row cells `phi[x0][1..dimY-2]`. -/
theorem border_type_strides (dX dY : ℕ) :
    (border_type_Y dX dY).count = dX - 2 ∧ (border_type_Y dX dY).stride = dY ∧
    (border_type_X dX dY).count = dY - 2 ∧ (border_type_X dX dY).stride = 1 ∧
    typeAddrs (border_type_Y dX dY) (flatIdx dY 1 1) =
      (List.range (dX - 2)).map (fun i => flatIdx dY (1 + i) 1) ∧
    typeAddrs (border_type_X dX dY) (flatIdx dY 1 1) =
      (List.range (dY - 2)).map (fun j => flatIdx dY 1 (1 + j)) := by
  refine ⟨rfl, rfl, rfl, rfl, ?_, ?_⟩
  · unfold typeAddrs border_type_Y flatIdx
    congr 1
    funext i
    ring
  · unfold typeAddrs border_type_X flatIdx
    congr 1
    funext j
    ring

/-- Per-axis local dimensions of the tile at process-grid x-coordinate
`cx`: interior width `upper_offset - offset` plus 2 halo cells. -/
def dimXof (nx Px cx : ℕ) : ℕ := (offsetFor nx Px (cx + 1) - offsetFor nx Px cx) + 2

/-- Same along the y axis. -/
def dimYof (ny Py cy : ℕ) : ℕ := (offsetFor ny Py (cy + 1) - offsetFor ny Py cy) + 2

/-- The distributed array being exchanged by `Exchange_Borders` (`pCG` in CG
mode, `phi` otherwise): one local grid per process coordinate `(cx, cy)`.
The process topology is the non-periodic `Px × Py` Cartesian grid, so
`proc_top = (cx, cy-1)` (none when `cy = 0`), `proc_bottom = (cx, cy+1)`
(none when `cy+1 = Py`), `proc_left = (cx-1, cy)` and
`proc_right = (cx+1, cy)` likewise. -/
structure ProcGrid where
  Px : ℕ
  Py : ℕ
  nx : ℕ
  ny : ℕ
  field : ℕ → ℕ → Grid

/-- Phase 1 of `Exchange_Borders` ("all traffic in direction top"): every
process sends its first interior column `[1..dimX-2][1]` to `proc_top` and
receives from `proc_bottom` into its halo column `[1..dimX-2][dimY-1]`;
with `proc_bottom = MPI_PROC_NULL` (`cy + 1 = Py`) the receive is a no-op
and the halo cell keeps its value. -/
def exchT (G : ProcGrid) : ℕ → ℕ → Grid := fun cx cy x y =>
  if cy + 1 < G.Py ∧ y = dimYof G.ny G.Py cy - 1 ∧
     1 ≤ x ∧ x ≤ dimXof G.nx G.Px cx - 2
  then G.field cx (cy + 1) x 1
  else G.field cx cy x y

/-- Phase 2 ("all traffic in direction bottom"): send column
`[1..dimX-2][dimY-2]` to `proc_bottom`, receive from `proc_top` into halo
column `[1..dimX-2][0]`; the send buffer is read from the state phase 1
left behind. -/
def exchB (G : ProcGrid) : ℕ → ℕ → Grid := fun cx cy x y =>
  if 1 ≤ cy ∧ y = 0 ∧ 1 ≤ x ∧ x ≤ dimXof G.nx G.Px cx - 2
  then exchT G cx (cy - 1) x (dimYof G.ny G.Py (cy - 1) - 2)
  else exchT G cx cy x y

/-- Phase 3 ("all traffic in direction left"): send row `[1][1..dimY-2]`
to `proc_left`, receive from `proc_right` into halo row
`[dimX-1][1..dimY-2]`. -/
def exchL (G : ProcGrid) : ℕ → ℕ → Grid := fun cx cy x y =>
  if cx + 1 < G.Px ∧ x = dimXof G.nx G.Px cx - 1 ∧
     1 ≤ y ∧ y ≤ dimYof G.ny G.Py cy - 2
  then exchB G (cx + 1) cy 1 y
  else exchB G cx cy x y

/-- Phase 4 ("all traffic in direction right"): send row
`[dimX-2][1..dimY-2]` to `proc_right`, receive from `proc_left` into halo
row `[0][1..dimY-2]`. -/
def exchR (G : ProcGrid) : ℕ → ℕ → Grid := fun cx cy x y =>
  if 1 ≤ cx ∧ x = 0 ∧ 1 ≤ y ∧ y ≤ dimYof G.ny G.Py cy - 2
  then exchL G (cx - 1) cy (dimXof G.nx G.Px (cx - 1) - 2) y
  else exchL G cx cy x y

/-- The function `Exchange_Borders` across the process grid: the four sendrecv phases in
program order. -/
def Exchange_Borders (G : ProcGrid) : ProcGrid := { G with field := exchR G }

/-- No phase writes any interior cell. -/
lemma exch_interior (G : ProcGrid)
    (hX : ∀ cx, cx < G.Px → 3 ≤ dimXof G.nx G.Px cx)
    (hY : ∀ cy, cy < G.Py → 3 ≤ dimYof G.ny G.Py cy) (cx cy x y : ℕ) (hcx : cx < G.Px) (hcy : cy < G.Py)
    (hx1 : 1 ≤ x) (hx2 : x ≤ dimXof G.nx G.Px cx - 2)
    (hy1 : 1 ≤ y) (hy2 : y ≤ dimYof G.ny G.Py cy - 2) :
    (Exchange_Borders G).field cx cy x y = G.field cx cy x y := by
  have h3X := hX cx hcx
  have h3Y := hY cy hcy
  show exchR G cx cy x y = _
  unfold exchR exchL exchB exchT
  rw [if_neg (by omega), if_neg (by omega), if_neg (by omega), if_neg (by omega)]

lemma exch_recv_bottom (G : ProcGrid)
    (hX : ∀ cx, cx < G.Px → 3 ≤ dimXof G.nx G.Px cx)
    (hY : ∀ cy, cy < G.Py → 3 ≤ dimYof G.ny G.Py cy) (cx cy x : ℕ) (hcx : cx < G.Px) (hcyP : cy + 1 < G.Py)
    (hx1 : 1 ≤ x) (hx2 : x ≤ dimXof G.nx G.Px cx - 2) :
    (Exchange_Borders G).field cx cy x (dimYof G.ny G.Py cy - 1) =
      G.field cx (cy + 1) x 1 := by
  have h3X := hX cx hcx
  have h3Y := hY cy (by omega)
  show exchR G cx cy x _ = _
  unfold exchR exchL exchB exchT
  rw [if_neg (by omega), if_neg (by omega), if_neg (by omega),
    if_pos ⟨hcyP, rfl, hx1, hx2⟩]

lemma exch_recv_top (G : ProcGrid)
    (hX : ∀ cx, cx < G.Px → 3 ≤ dimXof G.nx G.Px cx)
    (hY : ∀ cy, cy < G.Py → 3 ≤ dimYof G.ny G.Py cy) (cx cy x : ℕ) (hcx : cx < G.Px) (hcy : cy < G.Py)
    (hcy1 : 1 ≤ cy) (hx1 : 1 ≤ x) (hx2 : x ≤ dimXof G.nx G.Px cx - 2) :
    (Exchange_Borders G).field cx cy x 0 =
      G.field cx (cy - 1) x (dimYof G.ny G.Py (cy - 1) - 2) := by
  have h3X := hX cx hcx
  have h3Y := hY cy hcy
  have h3Y' := hY (cy - 1) (by omega)
  show exchR G cx cy x 0 = _
  unfold exchR exchL exchB exchT
  rw [if_neg (by omega), if_neg (by omega), if_pos ⟨hcy1, rfl, hx1, hx2⟩,
    if_neg (by omega)]

lemma exch_recv_right (G : ProcGrid)
    (hX : ∀ cx, cx < G.Px → 3 ≤ dimXof G.nx G.Px cx)
    (hY : ∀ cy, cy < G.Py → 3 ≤ dimYof G.ny G.Py cy) (cx cy y : ℕ) (hcxP : cx + 1 < G.Px) (hcy : cy < G.Py)
    (hy1 : 1 ≤ y) (hy2 : y ≤ dimYof G.ny G.Py cy - 2) :
    (Exchange_Borders G).field cx cy (dimXof G.nx G.Px cx - 1) y =
      G.field (cx + 1) cy 1 y := by
  have h3X := hX cx (by omega)
  have h3X' := hX (cx + 1) hcxP
  have h3Y := hY cy hcy
  show exchR G cx cy _ y = _
  unfold exchR exchL exchB exchT
  rw [if_neg (by omega), if_pos ⟨hcxP, rfl, hy1, hy2⟩, if_neg (by omega),
    if_neg (by omega)]

lemma exch_recv_left (G : ProcGrid)
    (hX : ∀ cx, cx < G.Px → 3 ≤ dimXof G.nx G.Px cx)
    (hY : ∀ cy, cy < G.Py → 3 ≤ dimYof G.ny G.Py cy) (cx cy y : ℕ) (hcx : cx < G.Px) (hcy : cy < G.Py)
    (hcx1 : 1 ≤ cx) (hy1 : 1 ≤ y) (hy2 : y ≤ dimYof G.ny G.Py cy - 2) :
    (Exchange_Borders G).field cx cy 0 y =
      G.field (cx - 1) cy (dimXof G.nx G.Px (cx - 1) - 2) y := by
  have h3X := hX cx hcx
  have h3X' := hX (cx - 1) (by omega)
  have h3Y := hY cy hcy
  show exchR G cx cy 0 y = _
  unfold exchR exchL exchB exchT
  rw [if_pos ⟨hcx1, rfl, hy1, hy2⟩, if_neg (by omega), if_neg (by omega),
    if_neg (by omega)]

lemma exch_edge_bottom (G : ProcGrid)
    (hX : ∀ cx, cx < G.Px → 3 ≤ dimXof G.nx G.Px cx)
    (hY : ∀ cy, cy < G.Py → 3 ≤ dimYof G.ny G.Py cy) (cx cy x : ℕ) (hcx : cx < G.Px) (hcy : cy < G.Py)
    (hcyP : cy + 1 = G.Py) (hx1 : 1 ≤ x) (hx2 : x ≤ dimXof G.nx G.Px cx - 2) :
    (Exchange_Borders G).field cx cy x (dimYof G.ny G.Py cy - 1) =
      G.field cx cy x (dimYof G.ny G.Py cy - 1) := by
  have h3X := hX cx hcx
  have h3Y := hY cy hcy
  show exchR G cx cy x _ = _
  unfold exchR exchL exchB exchT
  rw [if_neg (by omega), if_neg (by omega), if_neg (by omega), if_neg (by omega)]

lemma exch_edge_top (G : ProcGrid)
    (hX : ∀ cx, cx < G.Px → 3 ≤ dimXof G.nx G.Px cx)
    (hY : ∀ cy, cy < G.Py → 3 ≤ dimYof G.ny G.Py cy) (cx cy x : ℕ) (hcx : cx < G.Px) (hcy : cy < G.Py)
    (hcy0 : cy = 0) (hx1 : 1 ≤ x) (hx2 : x ≤ dimXof G.nx G.Px cx - 2) :
    (Exchange_Borders G).field cx cy x 0 = G.field cx cy x 0 := by
  have h3X := hX cx hcx
  have h3Y := hY cy hcy
  show exchR G cx cy x 0 = _
  unfold exchR exchL exchB exchT
  rw [if_neg (by omega), if_neg (by omega), if_neg (by omega), if_neg (by omega)]

lemma exch_edge_right (G : ProcGrid)
    (hX : ∀ cx, cx < G.Px → 3 ≤ dimXof G.nx G.Px cx)
    (hY : ∀ cy, cy < G.Py → 3 ≤ dimYof G.ny G.Py cy) (cx cy y : ℕ) (hcx : cx < G.Px) (hcy : cy < G.Py)
    (hcxP : cx + 1 = G.Px) (hy1 : 1 ≤ y) (hy2 : y ≤ dimYof G.ny G.Py cy - 2) :
    (Exchange_Borders G).field cx cy (dimXof G.nx G.Px cx - 1) y =
      G.field cx cy (dimXof G.nx G.Px cx - 1) y := by
  have h3X := hX cx hcx
  have h3Y := hY cy hcy
  show exchR G cx cy _ y = _
  unfold exchR exchL exchB exchT
  rw [if_neg (by omega), if_neg (by omega), if_neg (by omega), if_neg (by omega)]

lemma exch_edge_left (G : ProcGrid)
    (hX : ∀ cx, cx < G.Px → 3 ≤ dimXof G.nx G.Px cx)
    (hY : ∀ cy, cy < G.Py → 3 ≤ dimYof G.ny G.Py cy) (cx cy y : ℕ) (hcx : cx < G.Px) (hcy : cy < G.Py)
    (hcx0 : cx = 0) (hy1 : 1 ≤ y) (hy2 : y ≤ dimYof G.ny G.Py cy - 2) :
    (Exchange_Borders G).field cx cy 0 y = G.field cx cy 0 y := by
  have h3X := hX cx hcx
  have h3Y := hY cy hcy
  show exchR G cx cy 0 y = _
  unfold exchR exchL exchB exchT
  rw [if_neg (by omega), if_neg (by omega), if_neg (by omega), if_neg (by omega)]


/-- What claim C5 demands of one `Exchange_Borders` call: afterwards every
halo row/column next to a neighbour equals that neighbour's adjacent
interior boundary row/column, interiors are untouched, and at a physical
domain edge the halo keeps its previous value (no communication with the
`MPI_PROC_NULL` neighbour happens). -/
def HaloExchangeSpec (G : ProcGrid) : Prop :=
  ∀ cx cy, cx < G.Px → cy < G.Py →
    (∀ x y, 1 ≤ x → x ≤ dimXof G.nx G.Px cx - 2 →
      1 ≤ y → y ≤ dimYof G.ny G.Py cy - 2 →
      (Exchange_Borders G).field cx cy x y = G.field cx cy x y) ∧
    (cy + 1 < G.Py → ∀ x, 1 ≤ x → x ≤ dimXof G.nx G.Px cx - 2 →
      (Exchange_Borders G).field cx cy x (dimYof G.ny G.Py cy - 1) =
        (Exchange_Borders G).field cx (cy + 1) x 1) ∧
    (1 ≤ cy → ∀ x, 1 ≤ x → x ≤ dimXof G.nx G.Px cx - 2 →
      (Exchange_Borders G).field cx cy x 0 =
        (Exchange_Borders G).field cx (cy - 1) x (dimYof G.ny G.Py (cy - 1) - 2)) ∧
    (cx + 1 < G.Px → ∀ y, 1 ≤ y → y ≤ dimYof G.ny G.Py cy - 2 →
      (Exchange_Borders G).field cx cy (dimXof G.nx G.Px cx - 1) y =
        (Exchange_Borders G).field (cx + 1) cy 1 y) ∧
    (1 ≤ cx → ∀ y, 1 ≤ y → y ≤ dimYof G.ny G.Py cy - 2 →
      (Exchange_Borders G).field cx cy 0 y =
        (Exchange_Borders G).field (cx - 1) cy (dimXof G.nx G.Px (cx - 1) - 2) y) ∧
    (cy + 1 = G.Py → ∀ x, 1 ≤ x → x ≤ dimXof G.nx G.Px cx - 2 →
      (Exchange_Borders G).field cx cy x (dimYof G.ny G.Py cy - 1) =
        G.field cx cy x (dimYof G.ny G.Py cy - 1)) ∧
    (cy = 0 → ∀ x, 1 ≤ x → x ≤ dimXof G.nx G.Px cx - 2 →
      (Exchange_Borders G).field cx cy x 0 = G.field cx cy x 0) ∧
    (cx + 1 = G.Px → ∀ y, 1 ≤ y → y ≤ dimYof G.ny G.Py cy - 2 →
      (Exchange_Borders G).field cx cy (dimXof G.nx G.Px cx - 1) y =
        G.field cx cy (dimXof G.nx G.Px cx - 1) y) ∧
    (cx = 0 → ∀ y, 1 ≤ y → y ≤ dimYof G.ny G.Py cy - 2 →
      (Exchange_Borders G).field cx cy 0 y = G.field cx cy 0 y)

/-- C5: after `Exchange_Borders`, every halo line equals the adjacent
tile's interior boundary line, interiors are unchanged, and at a physical
domain edge the halo is left untouched (the `MPI_PROC_NULL` sendrecv is a
no-op). Tiles are assumed non-degenerate (at least one interior cell per
axis, `dim ≥ 3`). -/
theorem halo_exchange_correct (G : ProcGrid)
    (hX : ∀ cx, cx < G.Px → 3 ≤ dimXof G.nx G.Px cx)
    (hY : ∀ cy, cy < G.Py → 3 ≤ dimYof G.ny G.Py cy) :
    HaloExchangeSpec G := by
  intro cx cy hcx hcy
  refine ⟨fun x y hx1 hx2 hy1 hy2 => exch_interior G hX hY cx cy x y hcx hcy hx1 hx2 hy1 hy2,
    ?_, ?_, ?_, ?_,
    fun hcyP x hx1 hx2 => exch_edge_bottom G hX hY cx cy x hcx hcy hcyP hx1 hx2,
    fun hcy0 x hx1 hx2 => exch_edge_top G hX hY cx cy x hcx hcy hcy0 hx1 hx2,
    fun hcxP y hy1 hy2 => exch_edge_right G hX hY cx cy y hcx hcy hcxP hy1 hy2,
    fun hcx0 y hy1 hy2 => exch_edge_left G hX hY cx cy y hcx hcy hcx0 hy1 hy2⟩
  · intro hcyP x hx1 hx2
    rw [exch_recv_bottom G hX hY cx cy x hcx hcyP hx1 hx2,
      exch_interior G hX hY cx (cy + 1) x 1 hcx hcyP hx1 hx2 (by omega)
        (by have := hY (cy + 1) hcyP; omega)]
  · intro hcy1 x hx1 hx2
    rw [exch_recv_top G hX hY cx cy x hcx hcy hcy1 hx1 hx2,
      exch_interior G hX hY cx (cy - 1) x (dimYof G.ny G.Py (cy - 1) - 2) hcx
        (by omega) hx1 hx2 (by have := hY (cy - 1) (by omega); omega) (by omega)]
  · intro hcxP y hy1 hy2
    rw [exch_recv_right G hX hY cx cy y hcxP hcy hy1 hy2,
      exch_interior G hX hY (cx + 1) cy 1 y hcxP hcy (by omega)
        (by have := hX (cx + 1) hcxP; omega) hy1 hy2]
  · intro hcx1 y hy1 hy2
    rw [exch_recv_left G hX hY cx cy y hcx hcy hcx1 hy1 hy2,
      exch_interior G hX hY (cx - 1) cy (dimXof G.nx G.Px (cx - 1) - 2) y
        (by omega) hcy (by have := hX (cx - 1) (by omega); omega) (by omega) hy1 hy2]

/-- A concrete 2×2 process grid over an 8×8 global grid (each tile 4×4 of
interior 2×2), with a field encoding coordinates. -/
def gridW : ProcGrid :=
  { Px := 2, Py := 2, nx := 8, ny := 8,
    field := fun cx cy x y => (cx : ℚ) + 2 * cy + 3 * x + 5 * y }

theorem halo_exchange_correct_witness : HaloExchangeSpec gridW :=
  halo_exchange_correct gridW
    (by
      intro cx hcx
      have h2 : gridW.Px = 2 := rfl
      rw [h2] at hcx
      rcases cx with _ | _ | cx
      · decide
      · decide
      · omega)
    (by
      intro cy hcy
      have h2 : gridW.Py = 2 := rfl
      rw [h2] at hcy
      rcases cy with _ | _ | cy
      · decide
      · decide
      · omega)
